import Mathlib

/-!
# Detetive.c — clue catalogue, association table, exploration engine

A shallow embedding of `src/detetive.c` and the properties proved about it.

Conventions of the embedding

* A C string (`char *`, NUL terminated) is the list of its bytes before the
  terminating NUL, each byte read as `unsigned char` (a number in `1..255`).
* A nullable pointer to a tree node is an inductive type with a `nil`
  constructor for `NULL`.
* The globals `rootPistas`, `coletadas`, `totalColetadas` and the standard
  output are the fields of an explicit state record; `hashTable` is passed
  explicitly.
* `stdin` is the list of bytes still to be read.
-/

namespace Detetive

/-! ## Strings -/

/-- The bytes of a C string, terminating NUL excluded. -/
abbrev CStr := List Nat

/-- UTF-8 encoding of one code point: the bytes the compiler stores for a
character of a string literal of the (UTF-8) source file. -/
def utf8Char (n : Nat) : List Nat :=
  if n < 128 then [n]
  else if n < 2048 then [192 + n / 64, 128 + n % 64]
  else if n < 65536 then [224 + n / 4096, 128 + n / 64 % 64, 128 + n % 64]
  else [240 + n / 262144, 128 + n / 4096 % 64, 128 + n / 64 % 64, 128 + n % 64]

/-- The code points of a text, in order. -/
def codepoints (s : String) : List Nat := s.data.map Char.toNat

/-- The C string denoted by a string literal of the source file. -/
def lit (s : String) : CStr := (codepoints s).flatMap utf8Char

/-- Libc `strcmp`: the sign of the first differing byte pair (bytes compared as
`unsigned char`), a proper prefix being smaller. Only the sign of the result
is specified by the C standard; this model returns `-1`, `0` or `1`. -/
def strcmp : CStr → CStr → Int
  | [], [] => 0
  | [], _ :: _ => -1
  | _ :: _, [] => 1
  | a :: as, b :: bs =>
    if a < b then -1 else if b < a then 1 else strcmp as bs

/-- Strict lexicographic order of C strings, as decided by `strcmp`. -/
def StrLt (a b : CStr) : Prop := strcmp a b < 0

instance (a b : CStr) : Decidable (StrLt a b) :=
  inferInstanceAs (Decidable (strcmp a b < 0))

/-! ## Clue catalogue (binary search tree) -/

/-- A `PistaNode *`: `nil` is `NULL`. -/
inductive PistaNode where
  | nil
  | node (pista : CStr) (esq dir : PistaNode)
  deriving DecidableEq, Repr

/-- Function `criarPistaNode`: a fresh node with no children. -/
def criarPistaNode (pista : CStr) : PistaNode := .node pista .nil .nil

/-- Function `inserirPistaBST(root, pista, &inseriu)`: the returned root and the value
stored through `inseriu`. -/
def inserirPistaBST : PistaNode → CStr → PistaNode × Nat
  | .nil, pista => (criarPistaNode pista, 1)
  | .node p esq dir, pista =>
    let cmp := strcmp pista p
    if cmp = 0 then (.node p esq dir, 0)
    else if cmp < 0 then
      let r := inserirPistaBST esq pista
      (.node p r.1 dir, r.2)
    else
      let r := inserirPistaBST dir pista
      (.node p esq r.1, r.2)

/-- The clues in the order `exibirPistasInOrder` prints them. -/
def exibirPistasInOrder : PistaNode → List CStr
  | .nil => []
  | .node p esq dir => exibirPistasInOrder esq ++ p :: exibirPistasInOrder dir

/-- The catalogue after inserting the given clues one after another. -/
def inserirTodas (t : PistaNode) (ps : List CStr) : PistaNode :=
  ps.foldl (fun r p => (inserirPistaBST r p).1) t

/-! ## Association table (chained hash table) -/

/-- Number of buckets of `hashTable`. -/
def HASH_SIZE : Nat := 53

/-- Capacity of the `coletadas` array. -/
def MAX_COLETADAS : Nat := 100

/-- Function `hash_func`: `h` is an `unsigned int` (arithmetic modulo `2^32`), each
`char` is converted to `unsigned char` (modulo `256`). -/
def hash_func (s : CStr) : Nat :=
  s.foldl (fun h c => (h * 31 % 2 ^ 32 + c % 256) % 2 ^ 32 % HASH_SIZE) 0

/-- A `HashNode` without its `proximo` link: a chain is the list of its nodes
from the head. -/
structure HashNode where
  chave : CStr
  suspeito : CStr
  deriving DecidableEq, Repr

/-- The array `hashTable`: one chain per bucket. -/
abbrev HashTable := List (List HashNode)

/-- The zero-initialised global `hashTable`: `HASH_SIZE` empty chains. -/
def hashVazia : HashTable := List.replicate HASH_SIZE []

/-- Function `inserirNaHash`: the new node becomes the head of its bucket's chain. -/
def inserirNaHash (t : HashTable) (pista suspeito : CStr) : HashTable :=
  let idx := hash_func pista
  t.set idx ({ chave := pista, suspeito := suspeito } :: t.getD idx [])

/-- The `while (cur)` loop of `encontrarSuspeito` over one chain. -/
def buscarCadeia : List HashNode → CStr → Option CStr
  | [], _ => none
  | cur :: proximo, pista =>
    if strcmp cur.chave pista = 0 then some cur.suspeito
    else buscarCadeia proximo pista

/-- Function `encontrarSuspeito`: `none` is the `NULL` result. -/
def encontrarSuspeito (t : HashTable) (pista : CStr) : Option CStr :=
  buscarCadeia (t.getD (hash_func pista) []) pista

/-- The table after a sequence of `inserirNaHash` calls. -/
def inserirPares (t : HashTable) (ps : List (CStr × CStr)) : HashTable :=
  ps.foldl (fun h p => inserirNaHash h p.1 p.2) t

/-! ## Room tree -/

/-- A `Sala *`: `nil` is `NULL`. -/
inductive Sala where
  | nil
  | node (nome : CStr) (pista : Option CStr) (esq dir : Sala)
  deriving DecidableEq, Repr

/-- Field `pista` of a room (`none` is `NULL`). -/
def Sala.pista : Sala → Option CStr
  | .nil => none
  | .node _ p _ _ => p

/-- Field `nome` of a room. -/
def Sala.nome : Sala → CStr
  | .nil => []
  | .node n _ _ _ => n

/-- Field `esq` of a room. -/
def Sala.esq : Sala → Sala
  | .nil => .nil
  | .node _ _ e _ => e

/-- Field `dir` of a room. -/
def Sala.dir : Sala → Sala
  | .nil => .nil
  | .node _ _ _ d => d

/-- Function `criarSala`: a room with no children. -/
def criarSala (nome : CStr) (pista : Option CStr) : Sala := .node nome pista .nil .nil

/-- All rooms (non-`NULL` nodes) of a room tree, the root first. -/
def Sala.salas : Sala → List Sala
  | .nil => []
  | .node n p e d => .node n p e d :: (e.salas ++ d.salas)

/-! ## Session state and collection -/

/-- The lines the program prints during collection and exploration. -/
inductive Aviso where
  | sala (nome : CStr)
  | haPista (pista : CStr)
  | nenhumaPista
  | coletada (pista : CStr)
  | jaColetada (pista : CStr)
  | semCaminhos
  | escolha
  | saindo
  | semEsquerda
  | semDireita
  | invalido
  deriving DecidableEq, Repr

/-- The mutable globals and the standard output. `coletadas` holds the entries
`coletadas[0 .. totalColetadas-1]`; `totalColetadas` is its length. -/
structure Mundo where
  rootPistas : PistaNode
  coletadas : List CStr
  saida : List Aviso
  deriving DecidableEq, Repr

/-- The global `totalColetadas`. -/
def Mundo.totalColetadas (m : Mundo) : Nat := m.coletadas.length

/-- The globals at program start. -/
def mundoInicial : Mundo := { rootPistas := .nil, coletadas := [], saida := [] }

/-- Function `coletarPista`: `none` is a `NULL` argument. -/
def coletarPista (m : Mundo) : Option CStr → Mundo
  | none => m
  | some pista =>
    if m.totalColetadas ≥ MAX_COLETADAS then m
    else
      let r := inserirPistaBST m.rootPistas pista
      if r.2 ≠ 0 then
        { rootPistas := r.1
          coletadas := m.coletadas ++ [pista]
          saida := m.saida ++ [Aviso.coletada pista] }
      else
        { rootPistas := r.1
          coletadas := m.coletadas
          saida := m.saida ++ [Aviso.jaColetada pista] }

/-- The session after a sequence of `coletarPista` calls. -/
def coletarTodas (m : Mundo) (ps : List (Option CStr)) : Mundo :=
  ps.foldl coletarPista m

/-! ## Exploration engine -/

/-- The characters `fgets` stores: at most `k` of them, stopping after a
newline (byte 10) or at end of input; with the input left unread. -/
def fgetsAux : Nat → List Nat → List Nat × List Nat
  | 0, inp => ([], inp)
  | _ + 1, [] => ([], [])
  | k + 1, c :: rest =>
    if c = 10 then ([c], rest)
    else ((fgetsAux k rest).1.cons c, (fgetsAux k rest).2)

/-- Function `fgets(buf, size, stdin)`: `none` (the `NULL` result) at end of input,
otherwise the buffer contents and the input left. -/
def fgets (size : Nat) (inp : List Nat) : Option (List Nat × List Nat) :=
  match inp with
  | [] => none
  | _ :: _ => some (fgetsAux (size - 1) inp)

/-- The C string held by a buffer after `buf[strcspn(buf, "\n")] = 0`: the
bytes before the first newline or NUL. -/
def cortarNewline (buf : List Nat) : CStr :=
  buf.takeWhile (fun b => b != 0 && b != 10)

/-- States of the exploration engine. -/
inductive Estado where
  | AtRoom (cur : Sala)
  | Exited
  deriving DecidableEq, Repr

/-- Lines 193-206 of the loop body: announce the room, collect its clue,
print the prompt. -/
def entrar (cur : Sala) (m : Mundo) : Mundo :=
  let m1 : Mundo := { m with saida := m.saida ++ [Aviso.sala cur.nome] }
  let m2 : Mundo :=
    match cur.pista with
    | some p => coletarPista { m1 with saida := m1.saida ++ [Aviso.haPista p] } (some p)
    | none => { m1 with saida := m1.saida ++ [Aviso.nenhumaPista] }
  if cur.esq = .nil ∧ cur.dir = .nil then
    { m2 with saida := m2.saida ++ [Aviso.semCaminhos] }
  else
    { m2 with saida := m2.saida ++ [Aviso.escolha] }

/-- Lines 209-224 of the loop body: the effect of one command read in room
`cur`. `none` is end of input (`fgets` returned `NULL`). -/
def transicao (cur : Sala) : Option CStr → Estado × List Aviso
  | none => (.Exited, [])
  | some comando =>
    if strcmp comando (lit "s") = 0 then (.Exited, [Aviso.saindo])
    else if strcmp comando (lit "e") = 0 then
      if cur.esq ≠ .nil then (.AtRoom cur.esq, [])
      else (.AtRoom cur, [Aviso.semEsquerda])
    else if strcmp comando (lit "d") = 0 then
      if cur.dir ≠ .nil then (.AtRoom cur.dir, [])
      else (.AtRoom cur, [Aviso.semDireita])
    else (.AtRoom cur, [Aviso.invalido])

/-- The variables alive at the head of the `while (1)` loop. -/
structure Config where
  cur : Sala
  stdin : List Nat
  mundo : Mundo
  deriving DecidableEq, Repr

/-- Outcome of one pass through the loop body. -/
inductive Passo where
  | continua (c : Config)
  | termina (c : Config)
  deriving DecidableEq, Repr

/-- One pass through the body of the `while (1)` loop: enter the room, read
a command with `fgets(comando, 8, stdin)`, strip the newline, dispatch. -/
def iteracao (c : Config) : Passo :=
  let m := entrar c.cur c.mundo
  let lido := fgets 8 c.stdin
  let resto := match lido with
    | none => c.stdin
    | some x => x.2
  match transicao c.cur (lido.map (fun x => cortarNewline x.1)) with
  | (.Exited, avisos) =>
    .termina { cur := c.cur, stdin := resto, mundo := { m with saida := m.saida ++ avisos } }
  | (.AtRoom prox, avisos) =>
    .continua { cur := prox, stdin := resto, mundo := { m with saida := m.saida ++ avisos } }

/-- The loop head is reached in `b` right after one pass of the body from `a`. -/
def Segue (a b : Config) : Prop := iteracao a = .continua b

instance (a b : Config) : Decidable (Segue a b) :=
  inferInstanceAs (Decidable (iteracao a = .continua b))

/-- The `while (1)` loop, run for at most the given number of passes. -/
def explorarLoop : Nat → Config → Option Config
  | 0, _ => none
  | n + 1, c =>
    match iteracao c with
    | .termina c1 => some c1
    | .continua c1 => explorarLoop n c1

/-- Function `explorarSalasComPistas(atual)`: the configuration when the function
returns. Every pass but the last consumes input, so `stdin.length + 1` passes
are enough. -/
def explorarSalasComPistas (atual : Sala) (stdin : List Nat) (m : Mundo) : Option Config :=
  if atual = .nil then some { cur := atual, stdin := stdin, mundo := m }
  else explorarLoop (stdin.length + 1) { cur := atual, stdin := stdin, mundo := m }

/-! ## Verdict -/

/-- The `for` loop of `contarPistasParaSuspeito` from index `i` on, `cont`
being the counter so far. -/
def contarLoop (t : HashTable) (acusado : CStr) : List CStr → Nat → Nat
  | [], cont => cont
  | p :: resto, cont =>
    match encontrarSuspeito t p with
    | some s => if strcmp s acusado = 0 then contarLoop t acusado resto (cont + 1)
                else contarLoop t acusado resto cont
    | none => contarLoop t acusado resto cont

/-- Function `contarPistasParaSuspeito(acusado)`: the final value of `cont`. -/
def contarPistasParaSuspeito (t : HashTable) (m : Mundo) (acusado : CStr) : Nat :=
  contarLoop t acusado m.coletadas 0

/-- The test `cont >= 2` of `main`: `true` when the accusation is accepted. -/
def acusacaoAceita (t : HashTable) (m : Mundo) (acusado : CStr) : Bool :=
  decide (contarPistasParaSuspeito t m acusado ≥ 2)

/-! ## The fixed map and table of `main` -/

/-- The room tree `main` builds. -/
def hall : Sala :=
  .node (lit "Hall de Entrada") none
    (.node (lit "Sala de Estar") (some (lit "pegada no tapete"))
      (criarSala (lit "Cozinha") (some (lit "faca com digitais")))
      (.node (lit "Jardim") none
        (criarSala (lit "Estufa") (some (lit "pegada molhada")))
        .nil))
    (.node (lit "Biblioteca") (some (lit "página arrancada do livro"))
      (criarSala (lit "Sala de Jantar") (some (lit "vidro quebrado")))
      (.node (lit "Escritório") (some (lit "bilhete rasgado"))
        .nil
        (criarSala (lit "Quarto do Dono") (some (lit "chave perdida")))))

/-- The clue/suspect pairs `main` inserts, in program order. -/
def paresFixos : List (CStr × CStr) :=
  [ (lit "pegada no tapete", lit "Carlos"),
    (lit "página arrancada do livro", lit "Mariana"),
    (lit "faca com digitais", lit "Carlos"),
    (lit "vidro quebrado", lit "Luisa"),
    (lit "bilhete rasgado", lit "Mariana"),
    (lit "pegada molhada", lit "Carlos"),
    (lit "chave perdida", lit "Luisa") ]

/-- The table `main` builds. -/
def tabelaFixa : HashTable := inserirPares hashVazia paresFixos

/-! ## Reference formulations used in the statements -/

/-- The hash as the specification words it: from `h = 0`, for each number of
the sequence, `h := (h * 31 + x) mod 53` in exact integer arithmetic. -/
def hashSpec (xs : List Nat) : Nat :=
  xs.foldl (fun h x => (h * 31 + x) % 53) 0

/-- The tally as the specification words it: the number of log positions
whose clue is found in the table with a suspect equal to the accused name. -/
def tallySpec (t : HashTable) (log : List CStr) (acusado : CStr) : Nat :=
  ((List.range log.length).filter
    (fun i => decide (encontrarSuspeito t (log.getD i []) = some acusado))).length

/-- The log and the catalogue agree: the log has no repeated entry, it is a
rearrangement of the in-order enumeration of the catalogue (same elements, same
count), and the enumeration is strictly ascending. -/
def Coerente (m : Mundo) : Prop :=
  m.coletadas.Nodup ∧
  m.coletadas.Perm (exibirPistasInOrder m.rootPistas) ∧
  List.Pairwise StrLt (exibirPistasInOrder m.rootPistas)

/-- The suspect strings stored in a table: field `suspeito` of every node of
every chain. -/
def suspeitosDe (t : HashTable) : List CStr :=
  t.flatten.map (fun n => n.suspeito)

/-- The clue keys stored in a table: field `chave` of every node of every
chain. -/
def chavesDe (t : HashTable) : List CStr :=
  t.flatten.map (fun n => n.chave)

/-- The clue texts carried by the rooms of a room tree, one per clue-bearing
room. -/
def pistasDe (r : Sala) : List CStr :=
  r.salas.filterMap Sala.pista

/-- The tally taken over the in-order enumeration of the catalogue instead of
over the log. -/
def contarNoCatalogo (t : HashTable) (m : Mundo) (acusado : CStr) : Nat :=
  contarLoop t acusado (exibirPistasInOrder m.rootPistas) 0

/-- One hundred distinct one-byte clues (bytes 1 to 100), enough to fill the
log. -/
def cemPistas : List (Option CStr) :=
  (List.range 100).map (fun i => some [i + 1])

/-- The log after a room's clue was presented for collection, told from the
log alone: unchanged for no clue, at capacity, or for a clue already logged;
otherwise the clue is appended. -/
def registrar (log : List CStr) : Option CStr → List CStr
  | none => log
  | some c =>
    if log.length ≥ MAX_COLETADAS then log
    else if c ∈ log then log
    else log ++ [c]

/-- The pairs (room, log at the loop head) that a walk can show inside a room
tree entered with log `log`: the root before and after its clue was collected,
then the same for either child entered with the log the root leaves. -/
def alcancaveis : Sala → List CStr → List (Sala × List CStr)
  | .nil, _ => []
  | .node n p e d, log =>
    (.node n p e d, log) :: (.node n p e d, registrar log p) ::
      (alcancaveis e (registrar log p) ++ alcancaveis d (registrar log p))

/-! ## Facts about `strcmp` -/

theorem strcmp_self (a : CStr) : strcmp a a = 0 := by
  induction a with
  | nil => rfl
  | cons x xs ih => simp [strcmp, ih]

theorem strcmp_eq_zero_iff (a b : CStr) : strcmp a b = 0 ↔ a = b := by
  constructor
  · intro h
    induction a generalizing b with
    | nil =>
      cases b with
      | nil => rfl
      | cons y ys => simp [strcmp] at h
    | cons x xs ih =>
      cases b with
      | nil => simp [strcmp] at h
      | cons y ys =>
        simp only [strcmp] at h
        split_ifs at h with h1 h2
        all_goals first
          | (exfalso; omega)
          | (have hxy : x = y := by omega
             rw [hxy, ih ys h])
  · rintro rfl
    exact strcmp_self a

theorem strcmp_swap (a b : CStr) : strcmp b a = - strcmp a b := by
  induction a generalizing b with
  | nil => cases b <;> simp [strcmp]
  | cons x xs ih =>
    cases b with
    | nil => simp [strcmp]
    | cons y ys =>
      simp only [strcmp]
      split_ifs with h1 h2 h3 <;> first | omega | simp | exact ih ys

theorem StrLt.trans {a b c : CStr} (hab : StrLt a b) (hbc : StrLt b c) : StrLt a c := by
  unfold StrLt at *
  induction a generalizing b c with
  | nil =>
    cases c with
    | nil => cases b <;> simp [strcmp] at hab hbc
    | cons z zs => simp [strcmp]
  | cons x xs ih =>
    cases b with
    | nil => simp [strcmp] at hab
    | cons y ys =>
      cases c with
      | nil => simp [strcmp] at hbc
      | cons z zs =>
        simp only [strcmp] at hab hbc ⊢
        split_ifs at hab hbc ⊢ with h1 h2 h3 h4 h5 h6 <;>
          first | omega | (exact ih hab hbc)

theorem StrLt.irrefl (a : CStr) : ¬ StrLt a a := by
  unfold StrLt; rw [strcmp_self]; decide

theorem StrLt.ne {a b : CStr} (h : StrLt a b) : a ≠ b := by
  rintro rfl; exact StrLt.irrefl a h

theorem strLt_or_eq_or_gt (a b : CStr) : StrLt a b ∨ a = b ∨ StrLt b a := by
  unfold StrLt
  rcases lt_trichotomy (strcmp a b) 0 with h | h | h
  · exact Or.inl h
  · exact Or.inr (Or.inl ((strcmp_eq_zero_iff a b).1 h))
  · right; right; rw [strcmp_swap a b]; omega

/-- Consecutive ascent and pairwise ascent are the same thing. -/
theorem chain_iff_pairwise (l : List CStr) : List.Chain' StrLt l ↔ List.Pairwise StrLt l :=
  @List.chain'_iff_pairwise CStr StrLt ⟨fun _ _ _ h1 h2 => StrLt.trans h1 h2⟩ l

theorem pairwise_strLt_nodup {l : List CStr} (h : List.Pairwise StrLt l) : l.Nodup :=
  h.imp (fun hab => StrLt.ne hab)

theorem count_eq_one_of_nodup {l : List CStr} {x : CStr} (hn : l.Nodup) (hx : x ∈ l) :
    l.count x = 1 := by
  induction l with
  | nil => cases hx
  | cons a l ih =>
    rw [List.nodup_cons] at hn
    rw [List.count_cons]
    rcases List.mem_cons.1 hx with rfl | h
    · simp [List.count_eq_zero_of_not_mem hn.1]
    · have hax : a ≠ x := fun e => hn.1 (e ▸ h)
      simp [ih hn.2 h, hax]

/-! ## Facts about the catalogue -/

@[simp] theorem exibir_nil : exibirPistasInOrder .nil = [] := rfl

@[simp] theorem exibir_node (p : CStr) (e d : PistaNode) :
    exibirPistasInOrder (.node p e d) = exibirPistasInOrder e ++ p :: exibirPistasInOrder d := rfl

theorem inserir_inseriu_le (t : PistaNode) (c : CStr) :
    (inserirPistaBST t c).2 = 0 ∨ (inserirPistaBST t c).2 = 1 := by
  induction t with
  | nil => right; rfl
  | node p e d ihe ihd =>
    simp only [inserirPistaBST]
    split_ifs <;> simp [*]

theorem mem_inserir (t : PistaNode) (c x : CStr) :
    x ∈ exibirPistasInOrder (inserirPistaBST t c).1 ↔ x = c ∨ x ∈ exibirPistasInOrder t := by
  induction t with
  | nil => simp [inserirPistaBST, criarPistaNode]
  | node p e d ihe ihd =>
    simp only [inserirPistaBST]
    split_ifs with h1 h2
    · have : c = p := (strcmp_eq_zero_iff c p).1 h1
      subst this
      simp only [exibir_node, List.mem_append, List.mem_cons]
      tauto
    · simp [ihe]; tauto
    · simp [ihd]; tauto

theorem pairwise_inserir (t : PistaNode) (c : CStr)
    (h : List.Pairwise StrLt (exibirPistasInOrder t)) :
    List.Pairwise StrLt (exibirPistasInOrder (inserirPistaBST t c).1) := by
  induction t with
  | nil => simp [inserirPistaBST, criarPistaNode]
  | node p e d ihe ihd =>
    simp only [exibir_node, List.pairwise_append, List.pairwise_cons, List.mem_cons] at h
    obtain ⟨he, ⟨hpd, hd⟩, hed⟩ := h
    simp only [inserirPistaBST]
    split_ifs with h1 h2
    · simp only [exibir_node, List.pairwise_append, List.pairwise_cons, List.mem_cons]
      exact ⟨he, ⟨hpd, hd⟩, hed⟩
    · have hcp : StrLt c p := h2
      simp only [exibir_node, List.pairwise_append, List.pairwise_cons, List.mem_cons]
      refine ⟨ihe he, ⟨hpd, hd⟩, ?_⟩
      intro a ha b hb
      rcases (mem_inserir e c a).1 ha with rfl | ha
      · rcases hb with rfl | hb
        · exact hcp
        · exact StrLt.trans hcp (hpd b hb)
      · exact hed a ha b hb
    · have hpc : StrLt p c := by
        rcases strLt_or_eq_or_gt c p with h | h | h
        · exact absurd h h2
        · exact absurd ((strcmp_eq_zero_iff c p).2 h) h1
        · exact h
      simp only [exibir_node, List.pairwise_append, List.pairwise_cons, List.mem_cons]
      refine ⟨he, ⟨?_, ihd hd⟩, ?_⟩
      · intro b hb
        rcases (mem_inserir d c b).1 hb with rfl | hb
        · exact hpc
        · exact hpd b hb
      · intro a ha b hb
        rcases hb with rfl | hb
        · exact hed a ha b (Or.inl rfl)
        · rcases (mem_inserir d c b).1 hb with rfl | hb
          · exact StrLt.trans (hed a ha p (Or.inl rfl)) hpc
          · exact hed a ha b (Or.inr hb)

theorem pairwise_inserirTodas (ps : List CStr) (t : PistaNode)
    (h : List.Pairwise StrLt (exibirPistasInOrder t)) :
    List.Pairwise StrLt (exibirPistasInOrder (inserirTodas t ps)) := by
  induction ps generalizing t with
  | nil => exact h
  | cons p ps ih => exact ih _ (pairwise_inserir t p h)

theorem mem_inserirTodas (ps : List CStr) (t : PistaNode) (x : CStr) :
    x ∈ exibirPistasInOrder (inserirTodas t ps) ↔ x ∈ ps ∨ x ∈ exibirPistasInOrder t := by
  induction ps generalizing t with
  | nil => simp [inserirTodas]
  | cons p ps ih =>
    have := ih (inserirPistaBST t p).1
    simp only [inserirTodas, List.foldl_cons] at this ⊢
    rw [this, mem_inserir]
    simp only [List.mem_cons]
    tauto

/-- With the search-tree order, insertion reports `1` exactly for a new clue,
and leaves the tree as it is for a clue already there. -/
theorem inserir_presente_ou_novo (t : PistaNode) (c : CStr)
    (h : List.Pairwise StrLt (exibirPistasInOrder t)) :
    (c ∈ exibirPistasInOrder t → inserirPistaBST t c = (t, 0)) ∧
    (c ∉ exibirPistasInOrder t → (inserirPistaBST t c).2 = 1) := by
  induction t with
  | nil => simp [inserirPistaBST]
  | node p e d ihe ihd =>
    simp only [exibir_node, List.pairwise_append, List.pairwise_cons, List.mem_cons] at h
    obtain ⟨he, ⟨hpd, hd⟩, hed⟩ := h
    simp only [inserirPistaBST]
    split_ifs with h1 h2
    · have : c = p := (strcmp_eq_zero_iff c p).1 h1
      subst this
      simp
    · have hcp : StrLt c p := h2
      have hnd : c ∉ exibirPistasInOrder d := fun hc =>
        StrLt.irrefl c (StrLt.trans hcp (hpd c hc))
      have hne : c ≠ p := StrLt.ne hcp
      constructor
      · intro hc
        simp only [exibir_node, List.mem_append, List.mem_cons] at hc
        have hce : c ∈ exibirPistasInOrder e := by tauto
        rw [(ihe he).1 hce]
      · intro hc
        simp only [exibir_node, List.mem_append, List.mem_cons] at hc
        exact (ihe he).2 (by tauto)
    · have hpc : StrLt p c := by
        rcases strLt_or_eq_or_gt c p with h | h | h
        · exact absurd h h2
        · exact absurd ((strcmp_eq_zero_iff c p).2 h) h1
        · exact h
      have hne : c ≠ p := (StrLt.ne hpc).symm
      have hnd : c ∉ exibirPistasInOrder e := fun hc =>
        StrLt.irrefl c (StrLt.trans (hed c hc p (Or.inl rfl)) hpc)
      constructor
      · intro hc
        simp only [exibir_node, List.mem_append, List.mem_cons] at hc
        have hcd : c ∈ exibirPistasInOrder d := by tauto
        rw [(ihd hd).1 hcd]
      · intro hc
        simp only [exibir_node, List.mem_append, List.mem_cons] at hc
        exact (ihd hd).2 (by tauto)

/-! ## Facts about the hash and the association table -/

theorem hash_foldl_lt (s : CStr) (h : Nat) (hh : h < HASH_SIZE) :
    s.foldl (fun h c => (h * 31 % 2 ^ 32 + c % 256) % 2 ^ 32 % HASH_SIZE) h < HASH_SIZE := by
  induction s generalizing h with
  | nil => exact hh
  | cons c cs ih =>
    simp only [List.foldl_cons]
    apply ih
    exact Nat.mod_lt _ (by decide)

theorem hash_func_lt (s : CStr) : hash_func s < HASH_SIZE :=
  hash_foldl_lt s 0 (by decide)

theorem hash_foldl_eq (s : CStr) (hs : ∀ b ∈ s, b < 256) (h : Nat) (hh : h < 53) :
    s.foldl (fun h c => (h * 31 % 2 ^ 32 + c % 256) % 2 ^ 32 % HASH_SIZE) h
      = s.foldl (fun h x => (h * 31 + x) % 53) h := by
  induction s generalizing h with
  | nil => rfl
  | cons c cs ih =>
    have hc : c < 256 := hs c (List.mem_cons_self c cs)
    have hstep : (h * 31 % 2 ^ 32 + c % 256) % 2 ^ 32 % HASH_SIZE = (h * 31 + c) % 53 := by
      have e : (2 : Nat) ^ 32 = 4294967296 := by norm_num
      have h1 : h * 31 % 4294967296 = h * 31 := Nat.mod_eq_of_lt (by omega)
      have h2 : c % 256 = c := Nat.mod_eq_of_lt hc
      have h3 : (h * 31 + c) % 4294967296 = h * 31 + c := Nat.mod_eq_of_lt (by omega)
      simp only [HASH_SIZE, e, h1, h2, h3]
    simp only [List.foldl_cons, hstep]
    exact ih (fun b hb => hs b (List.mem_cons_of_mem c hb)) _ (Nat.mod_lt _ (by decide))

theorem utf8Char_lt (n : Nat) (hn : n < 1114112) : ∀ b ∈ utf8Char n, b < 256 := by
  intro b hb
  unfold utf8Char at hb
  split_ifs at hb <;> simp at hb <;> omega

theorem lit_lt (s : String) : ∀ b ∈ lit s, b < 256 := by
  intro b hb
  simp only [lit, codepoints, List.mem_flatMap, List.mem_map] at hb
  obtain ⟨n, ⟨c, _, rfl⟩, hb⟩ := hb
  have hc : c.toNat < 1114112 := by
    have := c.valid
    simp only [Char.toNat]
    rcases this with h | h
    · have : c.val.toNat < 55296 := h
      omega
    · have : c.val.toNat < 1114112 := h.2
      omega
  exact utf8Char_lt _ hc b hb

theorem flatMap_utf8_ascii (xs : List Nat) (h : ∀ c ∈ xs, c < 128) :
    xs.flatMap utf8Char = xs := by
  induction xs with
  | nil => rfl
  | cons x xs ih =>
    have hx : x < 128 := h x (List.mem_cons_self x xs)
    simp only [List.flatMap_cons, utf8Char, hx, if_true, List.singleton_append]
    rw [ih (fun c hc => h c (List.mem_cons_of_mem x hc))]

theorem buscarCadeia_cons (k v : CStr) (ch : List HashNode) (q : CStr) :
    buscarCadeia ({ chave := k, suspeito := v } :: ch) q
      = if k = q then some v else buscarCadeia ch q := by
  simp only [buscarCadeia, strcmp_eq_zero_iff]

theorem length_inserirNaHash (t : HashTable) (k v : CStr) :
    (inserirNaHash t k v).length = t.length := by
  simp [inserirNaHash]

theorem encontrar_inserir (t : HashTable) (ht : t.length = HASH_SIZE) (k v q : CStr) :
    encontrarSuspeito (inserirNaHash t k v) q
      = if k = q then some v else encontrarSuspeito t q := by
  have hk : hash_func k < t.length := ht ▸ hash_func_lt k
  unfold encontrarSuspeito inserirNaHash
  by_cases hq : hash_func k = hash_func q
  · simp only [← hq, List.getD_eq_getElem?_getD, List.getElem?_set_self hk, Option.getD_some]
    rw [buscarCadeia_cons]
  · have hkq : k ≠ q := fun h => hq (by rw [h])
    simp only [List.getD_eq_getElem?_getD, List.getElem?_set_ne hq, if_neg hkq]

theorem encontrar_vazia (q : CStr) : encontrarSuspeito hashVazia q = none := by
  have hq := hash_func_lt q
  unfold encontrarSuspeito hashVazia
  simp [List.getD_eq_getElem?_getD, List.getElem?_replicate, hq, buscarCadeia]

theorem length_inserirPares (ps : List (CStr × CStr)) (t : HashTable) :
    (inserirPares t ps).length = t.length := by
  induction ps generalizing t with
  | nil => rfl
  | cons p ps ih =>
    simp only [inserirPares, List.foldl_cons] at ih ⊢
    rw [ih, length_inserirNaHash]

theorem inserirPares_snoc (ps : List (CStr × CStr)) (p : CStr × CStr) (t : HashTable) :
    inserirPares t (ps ++ [p]) = inserirNaHash (inserirPares t ps) p.1 p.2 := by
  simp [inserirPares, List.foldl_append]

theorem encontrar_inserirPares (ps : List (CStr × CStr)) (q : CStr) :
    encontrarSuspeito (inserirPares hashVazia ps) q = List.lookup q ps.reverse := by
  induction ps using List.reverseRecOn with
  | nil => simpa [inserirPares] using encontrar_vazia q
  | append_singleton ps p ih =>
    obtain ⟨k, v⟩ := p
    rw [inserirPares_snoc, encontrar_inserir _ (by rw [length_inserirPares]; rfl), ih]
    simp only [List.reverse_append, List.reverse_cons, List.reverse_nil, List.nil_append,
      List.singleton_append, List.lookup_cons]
    by_cases hkq : k = q
    · subst hkq; simp
    · have : (q == k) = false := by simpa using fun h => hkq h.symm
      simp [hkq, this]

/-! ## Clue catalogue: the claims -/

/-- C1: for every finite sequence of clues inserted one after another with
`inserirPistaBST` from the empty catalogue, the in-order enumeration is in
strict ascending `strcmp` order (consecutive entries ascend, and so does every
pair), hence has no duplicates. -/
theorem C1_enumeration_strictly_ascending (ps : List CStr) :
    List.Chain' StrLt (exibirPistasInOrder (inserirTodas .nil ps)) ∧
    List.Pairwise StrLt (exibirPistasInOrder (inserirTodas .nil ps)) ∧
    (exibirPistasInOrder (inserirTodas .nil ps)).Nodup := by
  have h : List.Pairwise StrLt (exibirPistasInOrder (inserirTodas .nil ps)) :=
    pairwise_inserirTodas ps .nil (by simp)
  exact ⟨(chain_iff_pairwise _).2 h, h, pairwise_strLt_nodup h⟩

/-- C2: for a catalogue whose in-order enumeration is strictly ascending and
any clue `c`, `inserirPistaBST` reports `inseriu = 1` exactly when `c` is not
the text of a node; when `c` is present it reports `0` and returns the very
same tree. -/
theorem C2_inseriu_iff_absent (t : PistaNode) (c : CStr)
    (h : List.Chain' StrLt (exibirPistasInOrder t)) :
    ((inserirPistaBST t c).2 = 1 ↔ c ∉ exibirPistasInOrder t) ∧
    (c ∈ exibirPistasInOrder t →
      (inserirPistaBST t c).2 = 0 ∧ (inserirPistaBST t c).1 = t) := by
  have hp := inserir_presente_ou_novo t c ((chain_iff_pairwise _).1 h)
  refine ⟨⟨fun h1 hc => ?_, hp.2⟩, fun hc => ?_⟩
  · rw [hp.1 hc] at h1
    simp at h1
  · rw [hp.1 hc]
    exact ⟨rfl, rfl⟩

/-- Witness for C2: the catalogue built from "b", "a", queried with "a". -/
theorem C2_inseriu_iff_absent_witness :
    List.Chain' StrLt (exibirPistasInOrder (inserirTodas .nil [lit "b", lit "a"])) ∧
    (((inserirPistaBST (inserirTodas .nil [lit "b", lit "a"]) (lit "a")).2 = 1 ↔
        lit "a" ∉ exibirPistasInOrder (inserirTodas .nil [lit "b", lit "a"])) ∧
      (lit "a" ∈ exibirPistasInOrder (inserirTodas .nil [lit "b", lit "a"]) →
        (inserirPistaBST (inserirTodas .nil [lit "b", lit "a"]) (lit "a")).2 = 0 ∧
        (inserirPistaBST (inserirTodas .nil [lit "b", lit "a"]) (lit "a")).1
          = inserirTodas .nil [lit "b", lit "a"])) :=
  ⟨(chain_iff_pairwise _).2 (by decide),
    C2_inseriu_iff_absent _ _ ((chain_iff_pairwise _).2 (by decide))⟩

/-- C3: after inserting a finite sequence of clues from the empty catalogue, a
string occurs in the in-order enumeration exactly when it occurs in the
sequence, and then exactly once: its number of occurrences is `1` if it was
inserted and `0` otherwise. -/
theorem C3_enumeration_is_distinct_inserted (ps : List CStr) (x : CStr) :
    (x ∈ exibirPistasInOrder (inserirTodas .nil ps) ↔ x ∈ ps) ∧
    (exibirPistasInOrder (inserirTodas .nil ps)).count x = (if x ∈ ps then 1 else 0) := by
  have hm : x ∈ exibirPistasInOrder (inserirTodas .nil ps) ↔ x ∈ ps := by
    rw [mem_inserirTodas]; simp
  have hn : (exibirPistasInOrder (inserirTodas .nil ps)).Nodup :=
    pairwise_strLt_nodup (pairwise_inserirTodas ps .nil (by simp))
  refine ⟨hm, ?_⟩
  by_cases hx : x ∈ ps
  · rw [if_pos hx]
    exact count_eq_one_of_nodup hn (hm.2 hx)
  · rw [if_neg hx]
    exact List.count_eq_zero_of_not_mem (fun h => hx (hm.1 h))

/-- C4: insertion is idempotent. For a catalogue built by insertions from
empty and a clue `c`, inserting `c` and then `c` again reports `inseriu = 0`
the second time, returns the same tree, and the in-order enumeration (and its
length) is the one after the first insertion. -/
theorem C4_insertion_idempotent (ps : List CStr) (c : CStr) :
    (inserirPistaBST (inserirPistaBST (inserirTodas .nil ps) c).1 c).2 = 0 ∧
    (inserirPistaBST (inserirPistaBST (inserirTodas .nil ps) c).1 c).1
      = (inserirPistaBST (inserirTodas .nil ps) c).1 ∧
    exibirPistasInOrder (inserirPistaBST (inserirPistaBST (inserirTodas .nil ps) c).1 c).1
      = exibirPistasInOrder (inserirPistaBST (inserirTodas .nil ps) c).1 ∧
    (exibirPistasInOrder (inserirPistaBST (inserirPistaBST (inserirTodas .nil ps) c).1 c).1).length
      = (exibirPistasInOrder (inserirPistaBST (inserirTodas .nil ps) c).1).length := by
  have h0 : List.Pairwise StrLt (exibirPistasInOrder (inserirTodas .nil ps)) :=
    pairwise_inserirTodas ps .nil (by simp)
  have h1 := pairwise_inserir _ c h0
  have hc : c ∈ exibirPistasInOrder (inserirPistaBST (inserirTodas .nil ps) c).1 :=
    (mem_inserir _ c c).2 (Or.inl rfl)
  have h2 := (inserir_presente_ou_novo _ c h1).1 hc
  rw [h2]
  exact ⟨rfl, rfl, rfl, rfl⟩

/-! ## Association table: the claims -/

/-- C5: after any finite sequence of `inserirNaHash` calls on the empty
53-bucket table, `encontrarSuspeito k` is the lookup of `k` in the association
list of the inserted pairs taken newest first: it is the suspect of the last
inserted pair whose clue is `k`, it is `NULL` exactly when no inserted pair has
clue `k`, and after ("x","A") then ("x","B") it is "B"; "bg", which shares the
bucket of "x", is not found when only "x" was inserted. -/
theorem C5_lookup_newest_first (ps : List (CStr × CStr)) (k : CStr) :
    encontrarSuspeito (inserirPares hashVazia ps) k = List.lookup k ps.reverse ∧
    (∀ pre post v, ps = pre ++ (k, v) :: post → (∀ p ∈ post, p.1 ≠ k) →
      encontrarSuspeito (inserirPares hashVazia ps) k = some v) ∧
    (encontrarSuspeito (inserirPares hashVazia ps) k = none ↔ ∀ p ∈ ps, p.1 ≠ k) ∧
    encontrarSuspeito
      (inserirPares hashVazia [(lit "x", lit "A"), (lit "x", lit "B")]) (lit "x")
      = some (lit "B") ∧
    (hash_func (lit "bg") = hash_func (lit "x") ∧
      encontrarSuspeito (inserirPares hashVazia [(lit "x", lit "A")]) (lit "bg") = none) := by
  refine ⟨encontrar_inserirPares ps k, ?_, ?_, by decide, by decide⟩
  · intro pre post v hps hpost
    rw [encontrar_inserirPares, hps]
    simp only [List.reverse_append, List.reverse_cons, List.append_assoc,
      List.singleton_append, List.lookup_append]
    have hnone : List.lookup k post.reverse = none := by
      rw [List.lookup_eq_none_iff]
      intro p hp
      have := hpost p (List.mem_reverse.1 hp)
      simpa using fun h => this h.symm
    simp [hnone]
  · rw [encontrar_inserirPares, List.lookup_eq_none_iff]
    constructor
    · intro h p hp
      have := h p (List.mem_reverse.2 hp)
      simpa using fun h => (by simpa using this : ¬ k = p.1) h.symm
    · intro h p hp
      have := h p (List.mem_reverse.1 hp)
      simpa using fun h => this h.symm

/-- Witness for C5: three inserts, two of them for the same clue. -/
theorem C5_lookup_newest_first_witness :
    encontrarSuspeito
      (inserirPares hashVazia
        [(lit "x", lit "A"), (lit "y", lit "C"), (lit "x", lit "B"), (lit "z", lit "D")])
      (lit "x") = some (lit "B") :=
  (C5_lookup_newest_first
      [(lit "x", lit "A"), (lit "y", lit "C"), (lit "x", lit "B"), (lit "z", lit "D")]
      (lit "x")).2.1 [(lit "x", lit "A"), (lit "y", lit "C")] [(lit "z", lit "D")] (lit "B")
    (by decide) (by decide)

/-- C6 fails as stated: on "página arrancada do livro" the code hashes the 26
bytes of the literal and returns 9, while the per-code-point recipe over its 25
code points gives 21. -/
theorem C6_codepoint_hash_counterexample :
    hash_func (lit "página arrancada do livro") = 9 ∧
    hashSpec (codepoints "página arrancada do livro") = 21 ∧
    hash_func (lit "página arrancada do livro")
      ≠ hashSpec (codepoints "página arrancada do livro") := by
  decide

/-- C6, amended: for every string, `hash_func` in 32-bit unsigned arithmetic
equals the exact-arithmetic recipe `h := (h*31 + b) mod 53` run over the bytes
of the string (no intermediate overflow changes the result); for a text whose
code points are all below 128 the bytes are the code points, so the two
recipes agree, as on "pegada no tapete". -/
theorem C6_hash_is_exact_over_bytes (s : CStr) (hs : ∀ b ∈ s, b < 256) :
    hash_func s = hashSpec s ∧
    (∀ txt : String, hash_func (lit txt) = hashSpec (lit txt)) ∧
    (∀ txt : String, (∀ c ∈ codepoints txt, c < 128) →
      hash_func (lit txt) = hashSpec (codepoints txt)) ∧
    hash_func (lit "pegada no tapete") = hashSpec (codepoints "pegada no tapete") := by
  have hb : ∀ s : CStr, (∀ b ∈ s, b < 256) → hash_func s = hashSpec s :=
    fun s hs => hash_foldl_eq s hs 0 (by decide)
  refine ⟨hb s hs, fun txt => hb _ (lit_lt txt), fun txt h => ?_, by decide⟩
  rw [hb _ (lit_lt txt), lit, flatMap_utf8_ascii _ h]

/-- Witness for C6 (amended): the bytes of "página arrancada do livro". -/
theorem C6_hash_is_exact_over_bytes_witness :
    (∀ b ∈ lit "página arrancada do livro", b < 256) ∧
    hash_func (lit "página arrancada do livro")
      = hashSpec (lit "página arrancada do livro") :=
  ⟨by decide, (C6_hash_is_exact_over_bytes (lit "página arrancada do livro") (by decide)).1⟩

/-! ## Facts about the exploration engine -/

theorem fgetsAux_length (k : Nat) (inp : List Nat) :
    (fgetsAux k inp).2.length ≤ inp.length := by
  induction k generalizing inp with
  | zero => simp [fgetsAux]
  | succ k ih =>
    cases inp with
    | nil => simp [fgetsAux]
    | cons c rest =>
      simp only [fgetsAux]
      split_ifs
      · simp
      · have := ih rest
        simp only [List.length_cons]
        omega

theorem fgets_consumes {inp : List Nat} {x : List Nat × List Nat}
    (h : fgets 8 inp = some x) : x.2.length < inp.length := by
  cases inp with
  | nil => simp [fgets] at h
  | cons c rest =>
    simp only [fgets, Option.some.injEq] at h
    subst h
    simp only [fgetsAux, Nat.reduceSub]
    split_ifs
    · simp
    · have := fgetsAux_length 6 rest
      simp only [List.length_cons]
      omega

theorem transicao_none (r : Sala) : transicao r none = (.Exited, []) := rfl

theorem transicao_AtRoom {r r1 : Sala} {tok : Option CStr} {av : List Aviso}
    (h : transicao r tok = (.AtRoom r1, av)) :
    tok ≠ none ∧ (r1 = r ∨ (r1 = r.esq ∧ r.esq ≠ .nil) ∨ (r1 = r.dir ∧ r.dir ≠ .nil)) := by
  cases tok with
  | none => simp [transicao] at h
  | some t =>
    refine ⟨by simp, ?_⟩
    simp only [transicao] at h
    split_ifs at h with h1 h2 h3 h4 h5 <;>
      simp only [Prod.mk.injEq, Estado.AtRoom.injEq, reduceCtorEq, false_and] at h
    · exact Or.inr (Or.inl ⟨h.1.symm, h3⟩)
    · exact Or.inl h.1.symm
    · exact Or.inr (Or.inr ⟨h.1.symm, h5⟩)
    · exact Or.inl h.1.symm
    · exact Or.inl h.1.symm

theorem iteracao_continua {a b : Config} (h : iteracao a = .continua b) :
    (b.cur = a.cur ∨ (b.cur = a.cur.esq ∧ a.cur.esq ≠ .nil) ∨
        (b.cur = a.cur.dir ∧ a.cur.dir ≠ .nil)) ∧
    b.stdin.length < a.stdin.length ∧
    b.mundo.rootPistas = (entrar a.cur a.mundo).rootPistas ∧
    b.mundo.coletadas = (entrar a.cur a.mundo).coletadas := by
  unfold iteracao at h
  simp only at h
  split at h
  · simp at h
  · rename_i prox avisos heq
    simp only [Passo.continua.injEq] at h
    subst h
    obtain ⟨hne, hcur⟩ := transicao_AtRoom heq
    refine ⟨hcur, ?_, rfl, rfl⟩
    cases hf : fgets 8 a.stdin with
    | none => simp [hf] at hne
    | some x => exact fgets_consumes hf

theorem iteracao_termina {a b : Config} (h : iteracao a = .termina b) :
    b.cur = a.cur ∧
    b.mundo.rootPistas = (entrar a.cur a.mundo).rootPistas ∧
    b.mundo.coletadas = (entrar a.cur a.mundo).coletadas := by
  unfold iteracao at h
  simp only at h
  split at h
  · simp only [Passo.termina.injEq] at h
    subst h
    exact ⟨rfl, rfl, rfl⟩
  · simp at h

/-- The loop always ends: a pass that continues consumes input. -/
theorem explorarLoop_termina (n : Nat) (c : Config) (h : c.stdin.length < n) :
    ∃ c1, explorarLoop n c = some c1 := by
  induction n generalizing c with
  | zero => omega
  | succ n ih =>
    simp only [explorarLoop]
    cases hi : iteracao c with
    | termina c1 => exact ⟨c1, rfl⟩
    | continua c1 =>
      have := (iteracao_continua hi).2.1
      exact ih c1 (by omega)

theorem explorar_termina (atual : Sala) (stdin : List Nat) (m : Mundo) :
    ∃ c, explorarSalasComPistas atual stdin m = some c := by
  unfold explorarSalasComPistas
  split_ifs
  · exact ⟨_, rfl⟩
  · exact explorarLoop_termina _ _ (Nat.lt_succ_self _)

theorem self_mem_salas {r : Sala} (h : r ≠ .nil) : r ∈ r.salas := by
  cases r with
  | nil => exact absurd rfl h
  | node n p e d => simp [Sala.salas]

theorem filhos_mem_salas (root r : Sala) (h : r ∈ root.salas) :
    r ≠ .nil ∧ (r.esq ≠ .nil → r.esq ∈ root.salas) ∧ (r.dir ≠ .nil → r.dir ∈ root.salas) := by
  induction root with
  | nil => simp [Sala.salas] at h
  | node n p e d ihe ihd =>
    simp only [Sala.salas, List.mem_cons, List.mem_append] at h ⊢
    rcases h with rfl | h | h
    · refine ⟨by simp, fun h1 => ?_, fun h1 => ?_⟩
      · exact Or.inr (Or.inl (self_mem_salas h1))
      · exact Or.inr (Or.inr (self_mem_salas h1))
    · have := ihe h
      exact ⟨this.1, fun h1 => Or.inr (Or.inl (this.2.1 h1)),
        fun h1 => Or.inr (Or.inl (this.2.2 h1))⟩
    · have := ihd h
      exact ⟨this.1, fun h1 => Or.inr (Or.inr (this.2.1 h1)),
        fun h1 => Or.inr (Or.inr (this.2.2 h1))⟩

theorem segue_mem_salas (root : Sala) {a b : Config} (ha : a.cur ∈ root.salas)
    (h : Segue a b) : b.cur ∈ root.salas := by
  have hf := filhos_mem_salas root a.cur ha
  rcases (iteracao_continua h).1 with h1 | ⟨h1, h2⟩ | ⟨h1, h2⟩
  · rw [h1]; exact ha
  · rw [h1]; exact hf.2.1 h2
  · rw [h1]; exact hf.2.2 h2

theorem reach_mem_salas (root : Sala) {a b : Config} (ha : a.cur ∈ root.salas)
    (h : Relation.ReflTransGen Segue a b) : b.cur ∈ root.salas := by
  induction h with
  | refl => exact ha
  | tail _ hbc ih => exact segue_mem_salas root ih hbc

/-- The result of the loop is reached by passes of the body, the last of
which ends the loop. -/
theorem explorarLoop_some {n : Nat} {c c1 : Config} (h : explorarLoop n c = some c1) :
    ∃ b, Relation.ReflTransGen Segue c b ∧ iteracao b = .termina c1 := by
  induction n generalizing c with
  | zero => simp [explorarLoop] at h
  | succ n ih =>
    simp only [explorarLoop] at h
    cases hi : iteracao c with
    | termina c2 =>
      rw [hi] at h
      simp only [Option.some.injEq] at h
      subst h
      exact ⟨c, Relation.ReflTransGen.refl, hi⟩
    | continua c2 =>
      rw [hi] at h
      obtain ⟨b, hb, hterm⟩ := ih h
      exact ⟨b, Relation.ReflTransGen.head hi hb, hterm⟩

/-! ## Facts about collection -/

theorem inserir_zero (t : PistaNode) (c : CStr) (h : (inserirPistaBST t c).2 = 0) :
    (inserirPistaBST t c).1 = t := by
  induction t with
  | nil => simp [inserirPistaBST] at h
  | node p e d ihe ihd =>
    simp only [inserirPistaBST] at h ⊢
    split_ifs at h ⊢ with h1 h2
    · rfl
    · simp only at h ⊢; rw [ihe h]
    · simp only at h ⊢; rw [ihd h]

theorem perm_inserir_one (t : PistaNode) (c : CStr) (h : (inserirPistaBST t c).2 = 1) :
    (exibirPistasInOrder (inserirPistaBST t c).1).Perm (c :: exibirPistasInOrder t) := by
  induction t with
  | nil => simp [inserirPistaBST, criarPistaNode]
  | node p e d ihe ihd =>
    simp only [inserirPistaBST] at h ⊢
    by_cases h1 : strcmp c p = 0
    · simp [h1] at h
    · by_cases h2 : strcmp c p < 0
      · simp only [if_neg h1, if_pos h2, exibir_node] at h ⊢
        exact (ihe h).append_right _
      · simp only [if_neg h1, if_neg h2, exibir_node] at h ⊢
        have h4 := ((ihd h).cons p).append_left (exibirPistasInOrder e)
        have h5 : (exibirPistasInOrder e ++ p :: c :: exibirPistasInOrder d).Perm
            (exibirPistasInOrder e ++ c :: p :: exibirPistasInOrder d) :=
          (List.Perm.swap c p _).append_left _
        exact (h4.trans h5).trans List.perm_middle

theorem coletar_campos (m : Mundo) (s : List Aviso) (p : Option CStr) :
    (coletarPista { m with saida := s } p).rootPistas = (coletarPista m p).rootPistas ∧
    (coletarPista { m with saida := s } p).coletadas = (coletarPista m p).coletadas := by
  cases p with
  | none => exact ⟨rfl, rfl⟩
  | some c =>
    simp only [coletarPista, Mundo.totalColetadas]
    split_ifs <;> exact ⟨rfl, rfl⟩

theorem entrar_campos (cur : Sala) (m : Mundo) :
    (entrar cur m).rootPistas = (coletarPista m cur.pista).rootPistas ∧
    (entrar cur m).coletadas = (coletarPista m cur.pista).coletadas := by
  unfold entrar
  cases hp : cur.pista with
  | none => simp only; split_ifs <;> exact ⟨rfl, rfl⟩
  | some c =>
    simp only
    split_ifs <;> exact coletar_campos m _ (some c)

/-- What `coletarPista` does to the log and the catalogue. -/
theorem coletar_efeito (m : Mundo) (c : CStr) :
    (coletarPista m (some c)).coletadas =
      (if m.totalColetadas < MAX_COLETADAS ∧ (inserirPistaBST m.rootPistas c).2 = 1
        then m.coletadas ++ [c] else m.coletadas) ∧
    (coletarPista m (some c)).rootPistas =
      (if m.totalColetadas < MAX_COLETADAS then (inserirPistaBST m.rootPistas c).1
        else m.rootPistas) := by
  simp only [coletarPista]
  rcases inserir_inseriu_le m.rootPistas c with h | h
  · split_ifs <;> first | exact ⟨rfl, rfl⟩ | omega
  · split_ifs <;> first | exact ⟨rfl, rfl⟩ | omega

theorem coerente_campos {m m1 : Mundo} (hr : m1.rootPistas = m.rootPistas)
    (hc : m1.coletadas = m.coletadas) (h : Coerente m) : Coerente m1 := by
  unfold Coerente at *
  rw [hr, hc]
  exact h

theorem coerente_coletar (m : Mundo) (p : Option CStr) (h : Coerente m) :
    Coerente (coletarPista m p) := by
  cases p with
  | none => exact h
  | some c =>
    obtain ⟨hn, hp, hs⟩ := h
    have he := coletar_efeito m c
    unfold Coerente
    rw [he.1, he.2]
    by_cases hcap : m.totalColetadas < MAX_COLETADAS
    · rcases inserir_inseriu_le m.rootPistas c with h0 | h1
      · have hne : ¬ (m.totalColetadas < MAX_COLETADAS ∧ (inserirPistaBST m.rootPistas c).2 = 1) := by
          rw [h0]; simp
        rw [if_neg hne, if_pos hcap, inserir_zero _ _ h0]
        exact ⟨hn, hp, hs⟩
      · rw [if_pos ⟨hcap, h1⟩, if_pos hcap]
        have hnot : c ∉ exibirPistasInOrder m.rootPistas := by
          intro hc
          have := (inserir_presente_ou_novo m.rootPistas c hs).1 hc
          rw [this] at h1
          simp at h1
        have hnotlog : c ∉ m.coletadas := fun hc => hnot (hp.mem_iff.1 hc)
        refine ⟨?_, ?_, pairwise_inserir _ c hs⟩
        · rw [List.nodup_append]
          refine ⟨hn, List.nodup_singleton c, ?_⟩
          intro a ha hb
          rw [List.mem_singleton] at hb
          exact hnotlog (hb ▸ ha)
        · have h2 : (m.coletadas ++ [c]).Perm (c :: m.coletadas) := List.perm_append_singleton c _
          exact (h2.trans (hp.cons c)).trans (perm_inserir_one _ c h1).symm
    · have hne : ¬ (m.totalColetadas < MAX_COLETADAS ∧ (inserirPistaBST m.rootPistas c).2 = 1) :=
        fun h => hcap h.1
      rw [if_neg hne, if_neg hcap]
      exact ⟨hn, hp, hs⟩

theorem coerente_inicial : Coerente mundoInicial := by
  simp [Coerente, mundoInicial]

theorem coerente_coletarTodas (ps : List (Option CStr)) (m : Mundo) (h : Coerente m) :
    Coerente (coletarTodas m ps) := by
  induction ps generalizing m with
  | nil => exact h
  | cons p ps ih => exact ih _ (coerente_coletar m p h)

theorem coerente_entrar (cur : Sala) (m : Mundo) (h : Coerente m) :
    Coerente (entrar cur m) :=
  coerente_campos (entrar_campos cur m).1 (entrar_campos cur m).2 (coerente_coletar m _ h)

theorem coerente_reach {a b : Config} (ha : Coerente a.mundo)
    (h : Relation.ReflTransGen Segue a b) : Coerente b.mundo := by
  induction h with
  | refl => exact ha
  | tail _ hbc ih =>
    have := iteracao_continua hbc
    exact coerente_campos this.2.2.1 this.2.2.2 (coerente_entrar _ _ ih)

theorem coerente_explorar {atual : Sala} {stdin : List Nat} {m : Mundo} {c : Config}
    (hm : Coerente m) (h : explorarSalasComPistas atual stdin m = some c) :
    Coerente c.mundo := by
  unfold explorarSalasComPistas at h
  split_ifs at h
  · simp only [Option.some.injEq] at h
    subst h
    exact hm
  · obtain ⟨b, hb, hterm⟩ := explorarLoop_some h
    have := iteracao_termina hterm
    exact coerente_campos this.2.1 this.2.2 (coerente_entrar _ _ (coerente_reach hm hb))

/-- Collecting a clue already in the log changes neither log nor catalogue. -/
theorem coletar_repetida (m : Mundo) (c : CStr) (h : Coerente m) (hc : c ∈ m.coletadas) :
    (coletarPista m (some c)).coletadas = m.coletadas ∧
    (coletarPista m (some c)).rootPistas = m.rootPistas := by
  obtain ⟨hn, hp, hs⟩ := h
  have h0 := (inserir_presente_ou_novo m.rootPistas c hs).1 (hp.mem_iff.1 hc)
  have he := coletar_efeito m c
  rw [he.1, he.2, h0]
  simp

/-! ## Facts about the tally -/

theorem contarLoop_eq (t : HashTable) (acusado : CStr) (l : List CStr) (cont : Nat) :
    contarLoop t acusado l cont
      = cont + l.countP (fun p => decide (encontrarSuspeito t p = some acusado)) := by
  induction l generalizing cont with
  | nil => simp [contarLoop]
  | cons p l ih =>
    simp only [contarLoop, List.countP_cons]
    cases hp : encontrarSuspeito t p with
    | none => simp [ih]
    | some s =>
      by_cases h : s = acusado
      · subst h
        simp only [strcmp_self, if_true, ih, decide_True]
        omega
      · have h1 : strcmp s acusado ≠ 0 := fun e => h ((strcmp_eq_zero_iff _ _).1 e)
        simp [h, h1, ih]

theorem countP_eq_positions (q : CStr → Bool) (l : List CStr) :
    l.countP q = ((List.range l.length).filter (fun i => q (l.getD i []))).length := by
  induction l with
  | nil => simp
  | cons a l ih =>
    rw [List.length_cons, List.range_succ_eq_map, List.filter_cons, List.countP_cons,
      List.filter_map, ih]
    have hf : (fun i => q ((a :: l).getD i [])) ∘ Nat.succ = fun i => q (l.getD i []) := by
      funext i; simp
    rw [hf]
    by_cases hq : q a
    · simp [hq]
    · simp [hq]

/-! ## Exploration engine: the claims -/

/-- C7: the transition on one command token in room `r`: "e" moves to the left
child if there is one and otherwise stays, "d" likewise for the right child,
"s" and end of input go to `Exited`, every other token (the empty one
included) stays at `r`. Consequently, in a run started at a room `r`, the
current room at every loop head and when the function returns is a room of the
tree rooted at `r`. -/
theorem C7_transition_on_one_token (r : Sala) :
    (transicao r (some (lit "e"))).1 = (if r.esq ≠ .nil then .AtRoom r.esq else .AtRoom r) ∧
    (transicao r (some (lit "d"))).1 = (if r.dir ≠ .nil then .AtRoom r.dir else .AtRoom r) ∧
    (transicao r (some (lit "s"))).1 = .Exited ∧
    (transicao r none).1 = .Exited ∧
    (∀ tok : CStr, tok ≠ lit "e" → tok ≠ lit "d" → tok ≠ lit "s" →
      (transicao r (some tok)).1 = .AtRoom r) ∧
    (transicao r (some [])).1 = .AtRoom r ∧
    (∀ stdin m c, r ≠ .nil →
      Relation.ReflTransGen Segue { cur := r, stdin := stdin, mundo := m } c →
      c.cur ∈ r.salas) ∧
    (∀ stdin m c, r ≠ .nil → explorarSalasComPistas r stdin m = some c → c.cur ∈ r.salas) := by
  have hother : ∀ tok : CStr, tok ≠ lit "e" → tok ≠ lit "d" → tok ≠ lit "s" →
      (transicao r (some tok)).1 = .AtRoom r := by
    intro tok he hd hs
    simp only [transicao, strcmp_eq_zero_iff, if_neg he, if_neg hd, if_neg hs]
  have hreach : ∀ stdin m c, r ≠ .nil →
      Relation.ReflTransGen Segue { cur := r, stdin := stdin, mundo := m } c →
      c.cur ∈ r.salas :=
    fun stdin m c hr h => reach_mem_salas r (self_mem_salas hr) h
  refine ⟨?_, ?_, ?_, rfl, hother, hother [] (by decide) (by decide) (by decide), hreach, ?_⟩
  · have h1 : strcmp (lit "e") (lit "s") ≠ 0 := by decide
    have h2 : strcmp (lit "e") (lit "e") = 0 := by decide
    simp only [transicao, if_neg h1, if_pos h2]
    split_ifs <;> rfl
  · have h1 : strcmp (lit "d") (lit "s") ≠ 0 := by decide
    have h2 : strcmp (lit "d") (lit "e") ≠ 0 := by decide
    have h3 : strcmp (lit "d") (lit "d") = 0 := by decide
    simp only [transicao, if_neg h1, if_neg h2, if_pos h3]
    split_ifs <;> rfl
  · have h1 : strcmp (lit "s") (lit "s") = 0 := by decide
    simp only [transicao, if_pos h1]
  · intro stdin m c hr h
    unfold explorarSalasComPistas at h
    rw [if_neg hr] at h
    obtain ⟨b, hb, hterm⟩ := explorarLoop_some h
    rw [(iteracao_termina hterm).1]
    exact hreach stdin m b hr hb

/-- Witness for C7: in the hall, the token "x" changes nothing, and the run on
the input lines "e", "d", "x", "s" ends in a room of the map. -/
theorem C7_transition_on_one_token_witness :
    (transicao hall (some (lit "x"))).1 = .AtRoom hall ∧
    ∃ c, explorarSalasComPistas hall (lit "e\nd\nx\ns\n") mundoInicial = some c ∧
      c.cur ∈ hall.salas :=
  ⟨(C7_transition_on_one_token hall).2.2.2.2.1 (lit "x") (by decide) (by decide) (by decide),
    (explorar_termina hall (lit "e\nd\nx\ns\n") mundoInicial).imp fun c hc =>
      ⟨hc, (C7_transition_on_one_token hall).2.2.2.2.2.2.2 _ _ c (by decide) hc⟩⟩

/-- C8: in every session state reached from the empty session by `coletarPista`
calls, the log has no repeated entry and is a rearrangement of the catalogue's
enumeration (same elements, same count); a call appends its clue exactly when
the log is below capacity and the catalogue insertion reported `inseriu = 1`;
collecting a clue already in the log leaves log, catalogue and every tally as
they were. The same agreement holds at every loop head of the exploration
engine, after entering the current room, and when the engine returns. -/
theorem C8_log_matches_catalogue (ps : List (Option CStr)) :
    (coletarTodas mundoInicial ps).coletadas.Nodup ∧
    (coletarTodas mundoInicial ps).coletadas.Perm
      (exibirPistasInOrder (coletarTodas mundoInicial ps).rootPistas) ∧
    (∀ c, c ∈ (coletarTodas mundoInicial ps).coletadas ↔
      c ∈ exibirPistasInOrder (coletarTodas mundoInicial ps).rootPistas) ∧
    (coletarTodas mundoInicial ps).coletadas.length
      = (exibirPistasInOrder (coletarTodas mundoInicial ps).rootPistas).length ∧
    (∀ c, (coletarPista (coletarTodas mundoInicial ps) (some c)).coletadas =
      (if (coletarTodas mundoInicial ps).totalColetadas < MAX_COLETADAS ∧
          (inserirPistaBST (coletarTodas mundoInicial ps).rootPistas c).2 = 1
        then (coletarTodas mundoInicial ps).coletadas ++ [c]
        else (coletarTodas mundoInicial ps).coletadas)) ∧
    (∀ c, c ∈ (coletarTodas mundoInicial ps).coletadas →
      (coletarPista (coletarTodas mundoInicial ps) (some c)).coletadas
        = (coletarTodas mundoInicial ps).coletadas ∧
      (coletarPista (coletarTodas mundoInicial ps) (some c)).rootPistas
        = (coletarTodas mundoInicial ps).rootPistas ∧
      ∀ t acusado,
        contarPistasParaSuspeito t (coletarPista (coletarTodas mundoInicial ps) (some c)) acusado
          = contarPistasParaSuspeito t (coletarTodas mundoInicial ps) acusado) ∧
    (∀ root stdin c,
      Relation.ReflTransGen Segue { cur := root, stdin := stdin, mundo := mundoInicial } c →
      Coerente c.mundo ∧ Coerente (entrar c.cur c.mundo) ∧
      ∀ p, c.cur.pista = some p → p ∈ c.mundo.coletadas →
        (entrar c.cur c.mundo).coletadas = c.mundo.coletadas ∧
        (entrar c.cur c.mundo).rootPistas = c.mundo.rootPistas) ∧
    (∀ root stdin c, explorarSalasComPistas root stdin mundoInicial = some c →
      Coerente c.mundo) := by
  have hco : Coerente (coletarTodas mundoInicial ps) :=
    coerente_coletarTodas ps _ coerente_inicial
  refine ⟨hco.1, hco.2.1, fun c => hco.2.1.mem_iff, hco.2.1.length_eq,
    fun c => (coletar_efeito _ c).1, ?_, ?_, ?_⟩
  · intro c hc
    have h := coletar_repetida _ c hco hc
    refine ⟨h.1, h.2, fun t acusado => ?_⟩
    unfold contarPistasParaSuspeito
    rw [h.1]
  · intro root stdin c hreach
    have hc : Coerente c.mundo := coerente_reach coerente_inicial hreach
    refine ⟨hc, coerente_entrar _ _ hc, fun p hp hmem => ?_⟩
    have h := coletar_repetida _ p hc hmem
    have he := entrar_campos c.cur c.mundo
    rw [hp] at he
    exact ⟨he.2.trans h.1, he.1.trans h.2⟩
  · intro root stdin c h
    exact coerente_explorar coerente_inicial h

/-- Witness for C8: after collecting "a", "b", "a" the log is "a", "b", and
collecting "a" once more changes neither the log nor the catalogue. -/
theorem C8_log_matches_catalogue_witness :
    (coletarTodas mundoInicial [some (lit "a"), some (lit "b"), some (lit "a")]).coletadas
      = [lit "a", lit "b"] ∧
    (coletarPista (coletarTodas mundoInicial [some (lit "a"), some (lit "b"), some (lit "a")])
        (some (lit "a"))).coletadas
      = (coletarTodas mundoInicial [some (lit "a"), some (lit "b"), some (lit "a")]).coletadas ∧
    (coletarPista (coletarTodas mundoInicial [some (lit "a"), some (lit "b"), some (lit "a")])
        (some (lit "a"))).rootPistas
      = (coletarTodas mundoInicial [some (lit "a"), some (lit "b"), some (lit "a")]).rootPistas :=
  ⟨by decide,
    ((C8_log_matches_catalogue [some (lit "a"), some (lit "b"), some (lit "a")]).2.2.2.2.2.1
      (lit "a") (by decide)).1,
    ((C8_log_matches_catalogue [some (lit "a"), some (lit "b"), some (lit "a")]).2.2.2.2.2.1
      (lit "a") (by decide)).2.1⟩

/-! ## Verdict: the claims -/

/-- C9: for every log, table and accused name, `contarPistasParaSuspeito`
returns the number of log positions whose clue is found in the table with a
suspect equal to the accused name (a clue not found contributes nothing), and
the accusation is accepted exactly when that number is at least 2. -/
theorem C9_tally_counts_matching_positions (t : HashTable) (m : Mundo) (acusado : CStr) :
    contarPistasParaSuspeito t m acusado = tallySpec t m.coletadas acusado ∧
    (acusacaoAceita t m acusado = true ↔ 2 ≤ tallySpec t m.coletadas acusado) := by
  have h : contarPistasParaSuspeito t m acusado = tallySpec t m.coletadas acusado := by
    unfold contarPistasParaSuspeito tallySpec
    rw [contarLoop_eq, Nat.zero_add, countP_eq_positions]
  refine ⟨h, ?_⟩
  unfold acusacaoAceita
  rw [h]
  simp

/-- C10: on the fixed map and table, the engine run from the hall on the
input lines "e", "e", "s" returns with the log "pegada no tapete",
"faca com digitais" in that order; the tally for "Carlos" is 2 and the
accusation of "Carlos" is accepted. -/
theorem C10_scenario_e_e_s :
    ∃ c, explorarSalasComPistas hall (lit "e\ne\ns\n") mundoInicial = some c ∧
      c.mundo.coletadas = [lit "pegada no tapete", lit "faca com digitais"] ∧
      contarPistasParaSuspeito tabelaFixa c.mundo (lit "Carlos") = 2 ∧
      acusacaoAceita tabelaFixa c.mundo (lit "Carlos") = true := by
  obtain ⟨c, hc⟩ := explorar_termina hall (lit "e\ne\ns\n") mundoInicial
  have hlog : (explorarSalasComPistas hall (lit "e\ne\ns\n") mundoInicial).map
      (fun c => c.mundo.coletadas)
      = some [lit "pegada no tapete", lit "faca com digitais"] := by decide
  rw [hc, Option.map_some', Option.some.injEq] at hlog
  refine ⟨c, hc, hlog, ?_, ?_⟩
  · unfold contarPistasParaSuspeito
    rw [hlog]
    decide
  · unfold acusacaoAceita contarPistasParaSuspeito
    rw [hlog]
    decide

/-- C11: on the fixed map and table, the engine run from the hall (which has
no clue) on the input lines "e", "s" returns with the log holding exactly
"pegada no tapete"; the sorted listing is exactly that clue; the tally for
"Carlos" is 1 and the accusation of "Carlos" is rejected. -/
theorem C11_scenario_e_s :
    hall.pista = none ∧
    ∃ c, explorarSalasComPistas hall (lit "e\ns\n") mundoInicial = some c ∧
      c.mundo.coletadas = [lit "pegada no tapete"] ∧
      exibirPistasInOrder c.mundo.rootPistas = [lit "pegada no tapete"] ∧
      contarPistasParaSuspeito tabelaFixa c.mundo (lit "Carlos") = 1 ∧
      acusacaoAceita tabelaFixa c.mundo (lit "Carlos") = false := by
  refine ⟨rfl, ?_⟩
  obtain ⟨c, hc⟩ := explorar_termina hall (lit "e\ns\n") mundoInicial
  have hlog : (explorarSalasComPistas hall (lit "e\ns\n") mundoInicial).map
      (fun c => (c.mundo.coletadas, exibirPistasInOrder c.mundo.rootPistas))
      = some ([lit "pegada no tapete"], [lit "pegada no tapete"]) := by decide
  rw [hc, Option.map_some', Option.some.injEq, Prod.mk.injEq] at hlog
  refine ⟨c, hc, hlog.1, hlog.2, ?_, ?_⟩
  · unfold contarPistasParaSuspeito
    rw [hlog.1]
    decide
  · unfold acusacaoAceita contarPistasParaSuspeito
    rw [hlog.1]
    decide

/-! ## Facts used for the later verdict claims -/

theorem buscarCadeia_some {ch : List HashNode} {p s : CStr}
    (h : buscarCadeia ch p = some s) : ∃ n ∈ ch, n.suspeito = s := by
  induction ch with
  | nil => simp [buscarCadeia] at h
  | cons n ch ih =>
    simp only [buscarCadeia] at h
    split_ifs at h
    · exact ⟨n, List.mem_cons_self n ch, Option.some.inj h⟩
    · obtain ⟨n1, hn1, hs⟩ := ih h
      exact ⟨n1, List.mem_cons_of_mem n hn1, hs⟩

theorem encontrar_some_mem {t : HashTable} {p s : CStr}
    (h : encontrarSuspeito t p = some s) : s ∈ suspeitosDe t := by
  unfold encontrarSuspeito at h
  rw [List.getD_eq_getElem?_getD] at h
  cases hb : t[hash_func p]? with
  | none =>
    rw [hb] at h
    simp [buscarCadeia] at h
  | some b =>
    rw [hb] at h
    obtain ⟨n, hn, hs⟩ := buscarCadeia_some h
    simp only [suspeitosDe, List.mem_map, List.mem_flatten]
    exact ⟨n, ⟨b, List.getElem?_mem hb, hn⟩, hs⟩

theorem contar_zero_of_not_mem (t : HashTable) (log : List CStr) (acusado : CStr)
    (h : acusado ∉ suspeitosDe t) : contarLoop t acusado log 0 = 0 := by
  rw [contarLoop_eq, Nat.zero_add, List.countP_eq_zero]
  intro p _ hp
  exact h (encontrar_some_mem (of_decide_eq_true hp))

/-- C12: with the fixed table, for every log and every accused name that is
the empty string or is not one of the suspect strings stored in the table,
`contarPistasParaSuspeito` returns 0 and the accusation is rejected. -/
theorem C12_unknown_name_tallies_zero (m : Mundo) (acusado : CStr)
    (h : acusado = [] ∨ acusado ∉ suspeitosDe tabelaFixa) :
    contarPistasParaSuspeito tabelaFixa m acusado = 0 ∧
    acusacaoAceita tabelaFixa m acusado = false := by
  have hn : acusado ∉ suspeitosDe tabelaFixa := by
    rcases h with h | h
    · rw [h]; decide
    · exact h
  have h0 : contarPistasParaSuspeito tabelaFixa m acusado = 0 :=
    contar_zero_of_not_mem tabelaFixa m.coletadas acusado hn
  refine ⟨h0, ?_⟩
  unfold acusacaoAceita
  rw [h0]
  rfl

/-- Witness for C12: the name "carlos" (lower case) against a log holding two
clues of "Carlos". -/
theorem C12_unknown_name_tallies_zero_witness :
    (lit "carlos" = [] ∨ lit "carlos" ∉ suspeitosDe tabelaFixa) ∧
    contarPistasParaSuspeito tabelaFixa
      { rootPistas := .nil, coletadas := [lit "pegada no tapete", lit "faca com digitais"],
        saida := [] } (lit "carlos") = 0 ∧
    acusacaoAceita tabelaFixa
      { rootPistas := .nil, coletadas := [lit "pegada no tapete", lit "faca com digitais"],
        saida := [] } (lit "carlos") = false :=
  ⟨Or.inr (by decide), C12_unknown_name_tallies_zero _ _ (Or.inr (by decide))⟩

/-! ## Capacity of the log -/

theorem length_coletar_le (m : Mundo) (p : Option CStr)
    (h : m.coletadas.length ≤ MAX_COLETADAS) :
    (coletarPista m p).coletadas.length ≤ MAX_COLETADAS := by
  cases p with
  | none => exact h
  | some c =>
    rw [(coletar_efeito m c).1]
    split_ifs with h1
    · have := h1.1
      simp only [Mundo.totalColetadas] at this
      simp only [List.length_append, List.length_singleton]
      omega
    · exact h

theorem length_coletarTodas_le (ps : List (Option CStr)) (m : Mundo)
    (h : m.coletadas.length ≤ MAX_COLETADAS) :
    (coletarTodas m ps).coletadas.length ≤ MAX_COLETADAS := by
  induction ps generalizing m with
  | nil => exact h
  | cons p ps ih => exact ih _ (length_coletar_le m p h)

/-- C13: the log never holds more than `MAX_COLETADAS = 100` entries in a
state reached by `coletarPista` calls, and with 100 entries in the log (or
more) `coletarPista` of any argument returns the state as it was: same log,
same catalogue, nothing printed. -/
theorem C13_log_capacity (ps : List (Option CStr)) :
    MAX_COLETADAS = 100 ∧
    (coletarTodas mundoInicial ps).coletadas.length ≤ MAX_COLETADAS ∧
    (∀ (m : Mundo) (p : Option CStr), MAX_COLETADAS ≤ m.coletadas.length →
      coletarPista m p = m) := by
  refine ⟨rfl, length_coletarTodas_le ps _ (by decide), ?_⟩
  intro m p h
  cases p with
  | none => rfl
  | some c =>
    have h1 : m.totalColetadas ≥ MAX_COLETADAS := h
    simp only [coletarPista, if_pos h1]

set_option maxRecDepth 100000 in
/-- Witness for C13: after one hundred distinct clues the log holds 100
entries, and collecting a new clue or the first one again changes nothing. -/
theorem C13_log_capacity_witness :
    (coletarTodas mundoInicial cemPistas).coletadas.length = 100 ∧
    coletarPista (coletarTodas mundoInicial cemPistas) (some [200])
      = coletarTodas mundoInicial cemPistas ∧
    coletarPista (coletarTodas mundoInicial cemPistas) (some [1])
      = coletarTodas mundoInicial cemPistas :=
  ⟨by decide,
    (C13_log_capacity cemPistas).2.2 _ (some [200]) (by decide),
    (C13_log_capacity cemPistas).2.2 _ (some [1]) (by decide)⟩

/-! ## Leaves -/

theorem transicao_Exited {r : Sala} {tok : CStr} {av : List Aviso}
    (h : transicao r (some tok) = (.Exited, av)) : tok = lit "s" := by
  simp only [transicao, strcmp_eq_zero_iff] at h
  by_cases hs : tok = lit "s"
  · exact hs
  · rw [if_neg hs] at h
    split_ifs at h <;> simp at h

theorem transicao_folha {r : Sala} {tok : CStr} (he : r.esq = .nil) (hd : r.dir = .nil)
    (hs : tok ≠ lit "s") : (transicao r (some tok)).1 = .AtRoom r := by
  simp only [transicao, strcmp_eq_zero_iff, if_neg hs, he, hd, ne_eq, not_true_eq_false,
    if_false]
  split_ifs <;> rfl

theorem iteracao_termina_motivo {c c1 : Config} (h : iteracao c = .termina c1) :
    fgets 8 c.stdin = none ∨
      ∃ x, fgets 8 c.stdin = some x ∧ cortarNewline x.1 = lit "s" := by
  cases hf : fgets 8 c.stdin with
  | none => exact Or.inl rfl
  | some x =>
    right
    refine ⟨x, rfl, ?_⟩
    unfold iteracao at h
    simp only [hf, Option.map_some'] at h
    split at h
    · rename_i avisos heq
      exact transicao_Exited heq
    · simp at h

/-- C14: a leaf room never ends exploration. A pass of the loop body ends the
loop only when `fgets` met end of input or the command read is "s"; in a room
with no children, any other command continues the loop in that same room with
the rest of the input; and when the function returns, the last pass met end of
input or read "s". -/
theorem C14_leaf_does_not_end (c : Config) :
    (∀ c1, iteracao c = .termina c1 →
      fgets 8 c.stdin = none ∨
        ∃ x, fgets 8 c.stdin = some x ∧ cortarNewline x.1 = lit "s") ∧
    (∀ x, c.cur.esq = .nil → c.cur.dir = .nil → fgets 8 c.stdin = some x →
      cortarNewline x.1 ≠ lit "s" →
      ∃ c1, iteracao c = .continua c1 ∧ c1.cur = c.cur ∧ c1.stdin = x.2) ∧
    (∀ c1, c.cur ≠ .nil → explorarSalasComPistas c.cur c.stdin c.mundo = some c1 →
      ∃ b, Relation.ReflTransGen Segue c b ∧
        (fgets 8 b.stdin = none ∨
          ∃ x, fgets 8 b.stdin = some x ∧ cortarNewline x.1 = lit "s")) := by
  refine ⟨fun c1 h => iteracao_termina_motivo h, ?_, ?_⟩
  · intro x he hd hf hs
    have ht := @transicao_folha c.cur (cortarNewline x.1) he hd hs
    unfold iteracao
    simp only [hf, Option.map_some']
    cases hp : transicao c.cur (some (cortarNewline x.1)) with
    | mk e av =>
      rw [hp] at ht
      simp only at ht
      subst ht
      exact ⟨_, rfl, rfl, rfl⟩
  · intro c1 hne h
    unfold explorarSalasComPistas at h
    rw [if_neg hne] at h
    obtain ⟨b, hb, hterm⟩ := explorarLoop_some h
    exact ⟨b, hb, iteracao_termina_motivo hterm⟩

/-- Witness for C14: in the leaf "Cozinha", the commands "e", "d" and "x" each
continue the loop in "Cozinha". -/
theorem C14_leaf_does_not_end_witness :
    (∃ c1, iteracao { cur := hall.esq.esq, stdin := lit "e\ns\n", mundo := mundoInicial }
        = .continua c1 ∧ c1.cur = hall.esq.esq ∧ c1.stdin = lit "s\n") ∧
    (∃ c1, iteracao { cur := hall.esq.esq, stdin := lit "d\ns\n", mundo := mundoInicial }
        = .continua c1 ∧ c1.cur = hall.esq.esq ∧ c1.stdin = lit "s\n") ∧
    (∃ c1, iteracao { cur := hall.esq.esq, stdin := lit "x\ns\n", mundo := mundoInicial }
        = .continua c1 ∧ c1.cur = hall.esq.esq ∧ c1.stdin = lit "s\n") :=
  ⟨(C14_leaf_does_not_end
      { cur := hall.esq.esq, stdin := lit "e\ns\n", mundo := mundoInicial }).2.1
      (lit "e\n", lit "s\n") (by decide) (by decide) (by decide) (by decide),
    (C14_leaf_does_not_end
      { cur := hall.esq.esq, stdin := lit "d\ns\n", mundo := mundoInicial }).2.1
      (lit "d\n", lit "s\n") (by decide) (by decide) (by decide) (by decide),
    (C14_leaf_does_not_end
      { cur := hall.esq.esq, stdin := lit "x\ns\n", mundo := mundoInicial }).2.1
      (lit "x\n", lit "s\n") (by decide) (by decide) (by decide) (by decide)⟩

/-! ## Tally over the catalogue -/

theorem contar_eq_of_coerente (t : HashTable) (m : Mundo) (acusado : CStr)
    (h : Coerente m) :
    contarPistasParaSuspeito t m acusado = contarNoCatalogo t m acusado := by
  unfold contarPistasParaSuspeito contarNoCatalogo
  rw [contarLoop_eq, contarLoop_eq, h.2.1.countP_eq]

/-- C15: in every session state the exploration engine reaches from the empty
session (at a loop head, after entering the current room, and when the
function returns) and for every table and accused name, the tally over the log
equals the tally over the in-order enumeration of the catalogue. -/
theorem C15_tally_log_equals_catalogue (root : Sala) (stdin : List Nat) (c : Config)
    (t : HashTable) (acusado : CStr) :
    (Relation.ReflTransGen Segue { cur := root, stdin := stdin, mundo := mundoInicial } c →
      contarPistasParaSuspeito t c.mundo acusado = contarNoCatalogo t c.mundo acusado ∧
      contarPistasParaSuspeito t (entrar c.cur c.mundo) acusado
        = contarNoCatalogo t (entrar c.cur c.mundo) acusado) ∧
    (explorarSalasComPistas root stdin mundoInicial = some c →
      contarPistasParaSuspeito t c.mundo acusado = contarNoCatalogo t c.mundo acusado) := by
  constructor
  · intro h
    have hc : Coerente c.mundo := coerente_reach coerente_inicial h
    exact ⟨contar_eq_of_coerente t _ acusado hc,
      contar_eq_of_coerente t _ acusado (coerente_entrar _ _ hc)⟩
  · intro h
    exact contar_eq_of_coerente t _ acusado (coerente_explorar coerente_inicial h)

/-- Witness for C15: after the input lines "e", "e", "s" from the hall, the
two tallies for "Carlos" agree. -/
theorem C15_tally_log_equals_catalogue_witness :
    ∃ c, explorarSalasComPistas hall (lit "e\ne\ns\n") mundoInicial = some c ∧
      contarPistasParaSuspeito tabelaFixa c.mundo (lit "Carlos")
        = contarNoCatalogo tabelaFixa c.mundo (lit "Carlos") :=
  (explorar_termina hall (lit "e\ne\ns\n") mundoInicial).imp fun c hc =>
    ⟨hc, (C15_tally_log_equals_catalogue hall (lit "e\ne\ns\n") c tabelaFixa
      (lit "Carlos")).2 hc⟩

/-! ## The compiled-in dataset -/

/-- C16: in the compiled-in dataset the room tree carries exactly 7 clue
assignments, the table is built from exactly 7 pairs with pairwise distinct
clue keys (and holds exactly those 7 keys), and every clue carried by a room of
the map is found by `encontrarSuspeito`, with exactly one pair and one table
node for it. -/
theorem C16_fixed_dataset :
    (pistasDe hall).length = 7 ∧
    paresFixos.length = 7 ∧
    (paresFixos.map Prod.fst).Nodup ∧
    (chavesDe tabelaFixa).length = 7 ∧
    (chavesDe tabelaFixa).Nodup ∧
    (∀ p ∈ pistasDe hall,
      (encontrarSuspeito tabelaFixa p).isSome = true ∧
      encontrarSuspeito tabelaFixa p = List.lookup p paresFixos ∧
      (paresFixos.filter (fun q => decide (q.1 = p))).length = 1 ∧
      ((chavesDe tabelaFixa).filter (fun k => decide (k = p))).length = 1) := by
  decide

/-! ## Leaves and long lines: what the code does -/

/-- C17 does not hold of the code: run from the hall on the input lines "e",
"e", "x", "s", the engine enters the leaf "Cozinha" after the second line and
does not stop there: it goes on to read "x" and "s", so it returns with no
input left, having printed the leaf notice twice and the invalid-command
notice once. -/
theorem C17_leaf_does_not_stop_the_loop :
    hall.esq.esq.nome = lit "Cozinha" ∧
    hall.esq.esq.esq = .nil ∧ hall.esq.esq.dir = .nil ∧
    (explorarSalasComPistas hall (lit "e\ne\nx\ns\n") mundoInicial).map
      (fun c => (c.cur, c.stdin, c.mundo.saida.count Aviso.semCaminhos,
        c.mundo.saida.count Aviso.invalido, c.mundo.saida.count Aviso.saindo))
      = some (hall.esq.esq, [], 2, 1, 1) := by
  decide

/-- C18 does not hold of the code: run from the hall on the two input lines
"aaaaaaas" and "e", the engine reads "aaaaaaa" (seven bytes, all the 8-byte
buffer takes) as an invalid command and then the leftover "s" of the same line
as the exit command: it returns still in the hall with the line "e" unread and
nothing collected. -/
theorem C18_long_line_is_split :
    fgets 8 (lit "aaaaaaas\ne\n") = some (lit "aaaaaaa", lit "s\ne\n") ∧
    (explorarSalasComPistas hall (lit "aaaaaaas\ne\n") mundoInicial).map
      (fun c => (c.cur, c.stdin, c.mundo.coletadas,
        c.mundo.saida.count Aviso.invalido, c.mundo.saida.count Aviso.saindo))
      = some (hall, lit "e\n", [], 1, 1) := by
  decide

/-! ## Bucket index -/

/-- C19: for every string (the empty one and strings with bytes of 128 and
above included) `hash_func` is below `HASH_SIZE = 53`, hence a valid index into
the 53-bucket table at every `inserirNaHash` and `encontrarSuspeito`; the hash
of the empty string is 0. -/
theorem C19_hash_within_table (s : CStr) (ps : List (CStr × CStr)) :
    HASH_SIZE = 53 ∧
    hash_func s < HASH_SIZE ∧
    hashVazia.length = HASH_SIZE ∧
    hash_func s < (inserirPares hashVazia ps).length ∧
    hash_func [] = 0 ∧
    hash_func (lit "") = 0 ∧
    hash_func [128, 255, 200] < 53 := by
  refine ⟨rfl, hash_func_lt s, rfl, ?_, rfl, rfl, by decide⟩
  rw [length_inserirPares]
  exact hash_func_lt s

/-! ## What a walk can collect -/

theorem registrar_idem (log : List CStr) (p : Option CStr) :
    registrar (registrar log p) p = registrar log p := by
  cases p with
  | none => rfl
  | some c =>
    simp only [registrar]
    by_cases h1 : log.length ≥ MAX_COLETADAS
    · simp only [if_pos h1]
    · by_cases h2 : c ∈ log
      · simp only [if_neg h1, if_pos h2]
      · simp only [if_neg h1, if_neg h2]
        have h3 : c ∈ log ++ [c] := by simp
        simp only [if_pos h3, ite_self]

theorem coletar_registrar (m : Mundo) (p : Option CStr) (h : Coerente m) :
    (coletarPista m p).coletadas = registrar m.coletadas p := by
  cases p with
  | none => rfl
  | some c =>
    rw [(coletar_efeito m c).1]
    simp only [registrar, Mundo.totalColetadas]
    have hpn := inserir_presente_ou_novo m.rootPistas c h.2.2
    by_cases h1 : m.coletadas.length ≥ MAX_COLETADAS
    · have h2 : ¬ (m.coletadas.length < MAX_COLETADAS ∧
          (inserirPistaBST m.rootPistas c).2 = 1) := fun hh => by omega
      rw [if_neg h2, if_pos h1]
    · have h1' : m.coletadas.length < MAX_COLETADAS := by omega
      rw [if_neg h1]
      by_cases h2 : c ∈ m.coletadas
      · have h3 := hpn.1 (h.2.1.mem_iff.1 h2)
        have h4 : ¬ (m.coletadas.length < MAX_COLETADAS ∧
            (inserirPistaBST m.rootPistas c).2 = 1) := by
          rw [h3]; simp
        rw [if_neg h4, if_pos h2]
      · have h3 := hpn.2 (fun hc => h2 (h.2.1.mem_iff.2 hc))
        rw [if_pos ⟨h1', h3⟩, if_neg h2]

theorem self_mem_alcancaveis {r : Sala} (log : List CStr) (h : r ≠ .nil) :
    (r, log) ∈ alcancaveis r log := by
  cases r with
  | nil => exact absurd rfl h
  | node n p e d => simp [alcancaveis]

theorem mem_alcancaveis_node (n : CStr) (p : Option CStr) (e d : Sala) (log0 : List CStr)
    (x : Sala × List CStr) :
    x ∈ alcancaveis (.node n p e d) log0 ↔
      x = (.node n p e d, log0) ∨ x = (.node n p e d, registrar log0 p) ∨
      x ∈ alcancaveis e (registrar log0 p) ∨ x ∈ alcancaveis d (registrar log0 p) := by
  simp only [alcancaveis, List.mem_cons, List.mem_append]

theorem alcancaveis_fechado (root : Sala) (log0 : List CStr) (r : Sala) (log : List CStr)
    (h : (r, log) ∈ alcancaveis root log0) :
    (r, registrar log r.pista) ∈ alcancaveis root log0 ∧
    (r.esq ≠ .nil → (r.esq, registrar log r.pista) ∈ alcancaveis root log0) ∧
    (r.dir ≠ .nil → (r.dir, registrar log r.pista) ∈ alcancaveis root log0) := by
  induction root generalizing log0 with
  | nil => simp [alcancaveis] at h
  | node n p e d ihe ihd =>
    rw [mem_alcancaveis_node] at h
    simp only [mem_alcancaveis_node]
    rcases h with h | h | h | h
    · obtain ⟨rfl, rfl⟩ := Prod.mk.inj h
      exact ⟨Or.inr (Or.inl rfl),
        fun h1 => Or.inr (Or.inr (Or.inl (self_mem_alcancaveis _ h1))),
        fun h1 => Or.inr (Or.inr (Or.inr (self_mem_alcancaveis _ h1)))⟩
    · obtain ⟨rfl, rfl⟩ := Prod.mk.inj h
      have e2 : registrar (registrar log0 p) (Sala.node n p e d).pista = registrar log0 p :=
        registrar_idem log0 p
      rw [e2]
      exact ⟨Or.inr (Or.inl rfl),
        fun h1 => Or.inr (Or.inr (Or.inl (self_mem_alcancaveis _ h1))),
        fun h1 => Or.inr (Or.inr (Or.inr (self_mem_alcancaveis _ h1)))⟩
    · have := ihe _ h
      exact ⟨Or.inr (Or.inr (Or.inl this.1)),
        fun h1 => Or.inr (Or.inr (Or.inl (this.2.1 h1))),
        fun h1 => Or.inr (Or.inr (Or.inl (this.2.2 h1)))⟩
    · have := ihd _ h
      exact ⟨Or.inr (Or.inr (Or.inr this.1)),
        fun h1 => Or.inr (Or.inr (Or.inr (this.2.1 h1))),
        fun h1 => Or.inr (Or.inr (Or.inr (this.2.2 h1)))⟩

theorem entrar_registrar (cur : Sala) (m : Mundo) (h : Coerente m) :
    (entrar cur m).coletadas = registrar m.coletadas cur.pista :=
  (entrar_campos cur m).2.trans (coletar_registrar m cur.pista h)

theorem reach_alcancaveis (root : Sala) {a b : Config} (ha : Coerente a.mundo)
    (hmem : (a.cur, a.mundo.coletadas) ∈ alcancaveis root [])
    (h : Relation.ReflTransGen Segue a b) :
    Coerente b.mundo ∧ (b.cur, b.mundo.coletadas) ∈ alcancaveis root [] := by
  induction h with
  | refl => exact ⟨ha, hmem⟩
  | tail _ hbc ih =>
    rename_i x y
    obtain ⟨hco, hin⟩ := ih
    have hs := iteracao_continua hbc
    have hf := alcancaveis_fechado root [] _ _ hin
    refine ⟨coerente_campos hs.2.2.1 hs.2.2.2 (coerente_entrar _ _ hco), ?_⟩
    rw [hs.2.2.2, entrar_registrar _ _ hco]
    rcases hs.1 with h1 | ⟨h1, h2⟩ | ⟨h1, h2⟩
    · rw [h1]; exact hf.1
    · rw [h1]; exact hf.2.1 h2
    · rw [h1]; exact hf.2.2 h2

/-- When `explorarSalasComPistas` returns, the room and the log are one of the
pairs a walk of the tree can show. -/
theorem explorar_alcancaveis {root : Sala} {stdin : List Nat} {c : Config}
    (hroot : root ≠ .nil)
    (h : explorarSalasComPistas root stdin mundoInicial = some c) :
    (c.cur, c.mundo.coletadas) ∈ alcancaveis root [] := by
  unfold explorarSalasComPistas at h
  rw [if_neg hroot] at h
  obtain ⟨b, hb, hterm⟩ := explorarLoop_some h
  obtain ⟨hco, hin⟩ := @reach_alcancaveis root ⟨root, stdin, mundoInicial⟩ b
    coerente_inicial (self_mem_alcancaveis [] hroot) hb
  have ht := iteracao_termina hterm
  rw [ht.1, ht.2.2, entrar_registrar _ _ hco]
  exact (alcancaveis_fechado root [] _ _ hin).1

/-- C20: navigation only descends, and on the fixed map the two clues of
"Luisa" ("vidro quebrado", "chave perdida") are never in the same log. For
every input, when the engine run from the hall with the empty session returns,
the tally for "Luisa" is at most 1, the accusation of "Luisa" is rejected,
and the tally for any name is at most 2. -/
theorem C20_luisa_never_convicted (stdin : List Nat) (c : Config)
    (h : explorarSalasComPistas hall stdin mundoInicial = some c) :
    ¬ (lit "vidro quebrado" ∈ c.mundo.coletadas ∧ lit "chave perdida" ∈ c.mundo.coletadas) ∧
    contarPistasParaSuspeito tabelaFixa c.mundo (lit "Luisa") ≤ 1 ∧
    acusacaoAceita tabelaFixa c.mundo (lit "Luisa") = false ∧
    (∀ acusado, contarPistasParaSuspeito tabelaFixa c.mundo acusado ≤ 2) := by
  have hin : (c.cur, c.mundo.coletadas) ∈ alcancaveis hall [] :=
    explorar_alcancaveis (by decide) h
  have h1 : ∀ x ∈ alcancaveis hall [],
      ¬ (lit "vidro quebrado" ∈ x.2 ∧ lit "chave perdida" ∈ x.2) := by decide
  have h2 : ∀ x ∈ alcancaveis hall [],
      contarLoop tabelaFixa (lit "Luisa") x.2 0 ≤ 1 := by decide
  have h3 : ∀ a ∈ suspeitosDe tabelaFixa, ∀ x ∈ alcancaveis hall [],
      contarLoop tabelaFixa a x.2 0 ≤ 2 := by decide
  have hl : contarPistasParaSuspeito tabelaFixa c.mundo (lit "Luisa") ≤ 1 := h2 _ hin
  refine ⟨h1 _ hin, hl, ?_, ?_⟩
  · unfold acusacaoAceita
    rw [decide_eq_false_iff_not]
    omega
  · intro acusado
    by_cases ha : acusado ∈ suspeitosDe tabelaFixa
    · exact h3 acusado ha _ hin
    · have := contar_zero_of_not_mem tabelaFixa c.mundo.coletadas acusado ha
      unfold contarPistasParaSuspeito
      omega

/-- Witness for C20: the walk "d", "e" (collecting "vidro quebrado"), then
"s". -/
theorem C20_luisa_never_convicted_witness :
    ∃ c, explorarSalasComPistas hall (lit "d\ne\ns\n") mundoInicial = some c ∧
      contarPistasParaSuspeito tabelaFixa c.mundo (lit "Luisa") ≤ 1 ∧
      acusacaoAceita tabelaFixa c.mundo (lit "Luisa") = false :=
  (explorar_termina hall (lit "d\ne\ns\n") mundoInicial).imp fun c hc =>
    ⟨hc, (C20_luisa_never_convicted (lit "d\ne\ns\n") c hc).2.1,
      (C20_luisa_never_convicted (lit "d\ne\ns\n") c hc).2.2.1⟩

end Detetive
